import Mathlib

/-!
Verification development for the debounce/dispatch daemon of
`lint/persist.py` (SublimeLinter3).

The daemon consumes a queue of messages: `(view_id, timestamp)` check
requests, numeric sleep instructions, and control strings.  Its loop is
embedded here as a step function over an explicit state (the loop-local
pending table `last_runs` and the persistent table `self.last_runs`),
driven by a trace of timed events (a dequeued message, or the queue
timing out after `MIN_DELAY`).  Physical-time constraints of a real
execution (monotonic clock, queue timeout, `time.sleep`) are captured by
a well-timedness predicate on traces.
-/

namespace Persist

/-- `Daemon.MIN_DELAY = 0.1` (seconds), as a rational. -/
def MIN_DELAY : ℚ := 1 / 10

/-- A message on the daemon queue.  The source distinguishes, with
`isinstance`, tuples (check requests; the loop unpacks them into
`view_id, timestamp`, which raises for tuples that are not pairs),
numbers (sleep instructions), strings (control signals), and anything
else.  `other` carries the printed representation of the foreign value. -/
inductive QItem where
  | check (view_id : Nat) (timestamp : ℚ)
  | badTuple
  | num (d : ℚ)
  | str (s : String)
  | other (repr : String)
  deriving DecidableEq

/-- What the loop body observes in one iteration: either `q.get` returned
an item, or it raised `Empty` after the `MIN_DELAY` timeout. -/
inductive EvKind where
  | recv (item : QItem)
  | timeout
  deriving DecidableEq

/-- A timed loop event: `now` is the monotonic-clock reading when the
iteration body runs. -/
structure Event where
  now : ℚ
  kind : EvKind
  deriving DecidableEq

/-- Observable output of one iteration: a dispatch-callback invocation
(`self.reenter(view_id, timestamp)`, i.e. `self.callback(view_id,
timestamp)`) or a `printf` line (modelled by its argument list). -/
inductive Out where
  | cb (view_id : Nat) (timestamp : ℚ)
  | log (args : List String)
  deriving DecidableEq

/-- Daemon loop state: `pending` is the loop-local dict `last_runs`
(view id to request timestamp), `last_runs` is the persistent
`self.last_runs` (view id to monotonic dispatch time).  Python dicts are
embedded as association lists in insertion order with unique keys. -/
structure DaemonState where
  pending : List (Nat × ℚ)
  last_runs : List (Nat × ℚ)
  deriving DecidableEq

/-- The state when the loop starts: both dicts empty. -/
def initState : DaemonState := ⟨[], []⟩

/-- Dict lookup on an association list. -/
def lookupAL : List (Nat × ℚ) → Nat → Option ℚ
  | [], _ => none
  | (k', v') :: rest, k => if k' = k then some v' else lookupAL rest k

/-- Dict update `d[k] = v`: replaces the value at the first occurrence of
`k` in place, else appends (Python dicts keep insertion order and update
in place). -/
def insertAL : List (Nat × ℚ) → Nat → ℚ → List (Nat × ℚ)
  | [], k, v => [(k, v)]
  | (k', v') :: rest, k, v =>
      if k' = k then (k, v) :: rest else (k', v') :: insertAL rest k v

/-- Dict deletion `del d[k]`: removes the first occurrence of `k`. -/
def eraseAL : List (Nat × ℚ) → Nat → List (Nat × ℚ)
  | [], _ => []
  | (k', v') :: rest, k => if k' = k then rest else (k', v') :: eraseAL rest k

/-- Keys of an association list are pairwise distinct (every list built
from dict operations satisfies this). -/
def KeysNodup (l : List (Nat × ℚ)) : Prop := (l.map Prod.fst).Nodup

/-- The sweep in the `except Empty` branch: iterate over a snapshot of
the pending dict (`last_runs.copy().items()`); for each entry past the
minimum delay, set `self.last_runs[view_id]` to the current monotonic
time, delete the entry from the live pending dict, and invoke the
callback with the original request timestamp. -/
def sweepGo (now : ℚ) : List (Nat × ℚ) → DaemonState → DaemonState × List Out
  | [], st => (st, [])
  | (v, ts) :: rest, st =>
      if now > ts + MIN_DELAY then
        let st' : DaemonState :=
          { pending := eraseAL st.pending v,
            last_runs := insertAL st.last_runs v now }
        let r := sweepGo now rest st'
        (r.1, Out.cb v ts :: r.2)
      else
        sweepGo now rest st

/-- One full sweep over the current pending set. -/
def sweep (now : ℚ) (st : DaemonState) : DaemonState × List Out :=
  sweepGo now st.pending st

/-- The line `printf` produces for the given arguments: the plugin-name
prefix, then each argument followed by a space. -/
def printfLine (args : List String) : Out := Out.log args

/-- The four lines logged by the `except` handler at the loop boundary:
a header, a 20-dash delimiter, the traceback (an opaque string from the
`traceback` module, modelled by a placeholder), and the delimiter again. -/
def errorLog : List Out :=
  [Out.log ["error in SublimeLinter daemon:"],
   Out.log ["--------------------"],
   Out.log ["<traceback>"],
   Out.log ["--------------------"]]

/-- The body of one loop iteration (everything inside the outer `try`),
before exception handling.  `Except` is the error monad: `.error ()`
marks an uncaught Python exception (unpacking a tuple that is not a
pair; `time.sleep` of a negative duration raises `ValueError`). -/
def stepBody (st : DaemonState) (e : Event) : Except Unit (DaemonState × List Out) :=
  match e.kind with
  | EvKind.timeout => Except.ok (sweep e.now st)
  | EvKind.recv item =>
    match item with
    | QItem.check v ts =>
        match lookupAL st.last_runs v with
        | some r =>
            if ts < r then Except.ok (st, [])
            else Except.ok ({ st with pending := insertAL st.pending v ts }, [])
        | none => Except.ok ({ st with pending := insertAL st.pending v ts }, [])
    | QItem.badTuple => Except.error ()
    | QItem.num d => if d < 0 then Except.error () else Except.ok (st, [])
    | QItem.str s =>
        if s = "reload" then Except.ok (st, [printfLine ["daemon detected a reload"]])
        else Except.ok (st, [])
    | QItem.other r =>
        Except.ok (st, [printfLine ["unknown message sent to daemon:", r]])

/-- One loop iteration with the boundary `except` handler: an exception
leaves the state as it was and logs the diagnostic block. -/
def step (st : DaemonState) (e : Event) : DaemonState × List Out :=
  match stepBody st e with
  | Except.ok r => r
  | Except.error _ => (st, errorLog)

/-- Run the loop over a trace of events, collecting outputs tagged with
the time of the event that produced them. -/
def run : DaemonState → List Event → DaemonState × List (ℚ × Out)
  | st, [] => (st, [])
  | st, e :: rest =>
      let r := step st e
      let r' := run r.1 rest
      (r'.1, r.2.map (fun o => (e.now, o)) ++ r'.2)

/-- How long the iteration at event `e` sleeps after its body:
`time.sleep(d)` for a nonnegative numeric message, nothing otherwise
(a negative duration raises before sleeping). -/
def sleepOf (e : Event) : ℚ :=
  match e.kind with
  | EvKind.recv (QItem.num d) => if 0 ≤ d then d else 0
  | _ => 0

/-- Extra gap forced before an event: a `timeout` event happens only
after `q.get` has blocked for the full `MIN_DELAY`. -/
def gapOf (e : Event) : ℚ :=
  match e.kind with
  | EvKind.timeout => MIN_DELAY
  | _ => 0

/-- Well-timedness of a trace given the time of the previous event and
how long that iteration slept: the monotonic clock never decreases, and
each event happens no earlier than the previous event plus its sleep
plus the event's forced gap. -/
def wellTimedB : ℚ → ℚ → List Event → Bool
  | _, _, [] => true
  | t, carry, e :: rest =>
      decide (t ≤ e.now) && decide (t + carry + gapOf e ≤ e.now) &&
        wellTimedB e.now (sleepOf e) rest

/-- `hit(view)`: capture the monotonic time, enqueue the pair, return
the timestamp to the caller. -/
def hit (view_id : Nat) (now : ℚ) : QItem × ℚ :=
  (QItem.check view_id now, now)

/-- `delay(milliseconds=100)`: enqueue the duration converted from
milliseconds to seconds. -/
def delayMsg (milliseconds : ℚ := 100) : QItem :=
  QItem.num (milliseconds / 1000)

/-! ### Association-list (dict) lemmas -/

theorem mem_insertAL {l : List (Nat × ℚ)} {k : Nat} {x : ℚ} {p : Nat × ℚ}
    (h : p ∈ insertAL l k x) : p ∈ l ∨ p = (k, x) := by
  induction l with
  | nil => simpa [insertAL] using h
  | cons hd tl ih =>
    obtain ⟨k', v'⟩ := hd
    by_cases hk : k' = k
    · simp only [insertAL, if_pos hk, List.mem_cons] at h
      rcases h with h | h
      · right; exact h
      · left; exact List.mem_cons_of_mem _ h
    · simp only [insertAL, if_neg hk, List.mem_cons] at h
      rcases h with h | h
      · left; exact h ▸ List.mem_cons_self _ _
      · rcases ih h with h' | h'
        · left; exact List.mem_cons_of_mem _ h'
        · right; exact h'

theorem lookup_insertAL_self (l : List (Nat × ℚ)) (k : Nat) (x : ℚ) :
    lookupAL (insertAL l k x) k = some x := by
  induction l with
  | nil => simp [insertAL, lookupAL]
  | cons hd tl ih =>
    obtain ⟨k', v'⟩ := hd
    by_cases hk : k' = k
    · simp [insertAL, if_pos hk, lookupAL]
    · simp [insertAL, if_neg hk, lookupAL, hk, ih]

theorem lookup_insertAL_ne {k' k : Nat} (l : List (Nat × ℚ)) (x : ℚ)
    (h : k' ≠ k) : lookupAL (insertAL l k x) k' = lookupAL l k' := by
  induction l with
  | nil => simp [insertAL, lookupAL, if_neg (Ne.symm h)]
  | cons hd tl ih =>
    obtain ⟨a, b⟩ := hd
    by_cases ha : a = k
    · subst ha
      simp [insertAL, lookupAL, if_neg (Ne.symm h)]
    · simp only [insertAL, if_neg ha, lookupAL]
      by_cases hb : a = k'
      · simp [hb]
      · simp [hb, ih]

theorem mem_eraseAL {l : List (Nat × ℚ)} {k : Nat} {p : Nat × ℚ}
    (h : p ∈ eraseAL l k) : p ∈ l := by
  induction l with
  | nil => simp [eraseAL] at h
  | cons hd tl ih =>
    obtain ⟨a, b⟩ := hd
    by_cases ha : a = k
    · simp only [eraseAL, if_pos ha] at h
      exact List.mem_cons_of_mem _ h
    · simp only [eraseAL, if_neg ha, List.mem_cons] at h
      rcases h with h | h
      · exact h ▸ List.mem_cons_self _ _
      · exact List.mem_cons_of_mem _ (ih h)

theorem lookup_eraseAL_ne {k' k : Nat} (l : List (Nat × ℚ))
    (h : k' ≠ k) : lookupAL (eraseAL l k) k' = lookupAL l k' := by
  induction l with
  | nil => simp [eraseAL]
  | cons hd tl ih =>
    obtain ⟨a, b⟩ := hd
    by_cases ha : a = k
    · subst ha
      simp [eraseAL, lookupAL, if_neg (Ne.symm h)]
    · simp only [eraseAL, if_neg ha, lookupAL]
      by_cases hb : a = k'
      · simp [hb]
      · simp [hb, ih]

theorem lookup_none_of_not_mem_keys {l : List (Nat × ℚ)} {k : Nat}
    (h : k ∉ l.map Prod.fst) : lookupAL l k = none := by
  induction l with
  | nil => simp [lookupAL]
  | cons hd tl ih =>
    obtain ⟨a, b⟩ := hd
    simp only [List.map_cons, List.mem_cons, not_or] at h
    simp only [lookupAL, if_neg (fun hh : a = k => h.1 hh.symm)]
    exact ih h.2

theorem keys_eraseAL_sub {l : List (Nat × ℚ)} {k a : Nat}
    (h : a ∈ (eraseAL l k).map Prod.fst) : a ∈ l.map Prod.fst := by
  simp only [List.mem_map] at h ⊢
  obtain ⟨p, hp, he⟩ := h
  exact ⟨p, mem_eraseAL hp, he⟩

theorem lookup_eraseAL_self {l : List (Nat × ℚ)} {k : Nat}
    (h : KeysNodup l) : lookupAL (eraseAL l k) k = none := by
  induction l with
  | nil => simp [eraseAL, lookupAL]
  | cons hd tl ih =>
    obtain ⟨a, b⟩ := hd
    have hcons := List.nodup_cons.mp h
    by_cases ha : a = k
    · subst ha
      simp only [eraseAL, if_pos rfl]
      exact lookup_none_of_not_mem_keys hcons.1
    · simp only [eraseAL, if_neg ha, lookupAL, if_neg ha]
      exact ih hcons.2

theorem keysNodup_insertAL {l : List (Nat × ℚ)} (k : Nat) (x : ℚ)
    (h : KeysNodup l) : KeysNodup (insertAL l k x) := by
  induction l with
  | nil => simp [insertAL, KeysNodup]
  | cons hd tl ih =>
    obtain ⟨a, b⟩ := hd
    rcases List.nodup_cons.mp h with ⟨hna, hnd⟩
    by_cases ha : a = k
    · subst ha
      simp only [insertAL, if_pos rfl, KeysNodup, List.map_cons]
      exact List.nodup_cons.mpr ⟨hna, hnd⟩
    · simp only [insertAL, if_neg ha, KeysNodup, List.map_cons]
      refine List.nodup_cons.mpr ⟨?_, ih hnd⟩
      intro hmem
      simp only [List.mem_map] at hmem
      obtain ⟨p, hp, he⟩ := hmem
      rcases mem_insertAL hp with h' | h'
      · exact hna (List.mem_map.mpr ⟨p, h', he⟩)
      · exact ha (by simp [h'] at he; omega)

theorem keysNodup_eraseAL {l : List (Nat × ℚ)} (k : Nat)
    (h : KeysNodup l) : KeysNodup (eraseAL l k) := by
  induction l with
  | nil => simpa [eraseAL] using h
  | cons hd tl ih =>
    obtain ⟨a, b⟩ := hd
    rcases List.nodup_cons.mp h with ⟨hna, hnd⟩
    by_cases ha : a = k
    · simpa [eraseAL, if_pos ha, KeysNodup] using hnd
    · simp only [eraseAL, if_neg ha, KeysNodup, List.map_cons]
      refine List.nodup_cons.mpr ⟨?_, ih hnd⟩
      intro hmem
      exact hna (keys_eraseAL_sub hmem)

theorem mem_insertAL_same_key {l : List (Nat × ℚ)} {k : Nat} {x b : ℚ}
    (hn : KeysNodup l) (h : (k, b) ∈ insertAL l k x) : b = x := by
  induction l with
  | nil => simpa [insertAL] using h
  | cons hd tl ih =>
    obtain ⟨a, c⟩ := hd
    rcases List.nodup_cons.mp hn with ⟨hna, hnd⟩
    by_cases ha : a = k
    · subst ha
      simp only [insertAL, eq_self_iff_true, if_true, List.mem_cons, Prod.mk.injEq,
        true_and] at h
      rcases h with h | h
      · exact h
      · exact absurd (List.mem_map.mpr ⟨_, h, rfl⟩) hna
    · simp only [insertAL, if_neg ha, List.mem_cons, Prod.mk.injEq] at h
      rcases h with ⟨h1, _⟩ | h
      · exact absurd h1.symm ha
      · exact ih hnd h

theorem lookup_mem {l : List (Nat × ℚ)} {k : Nat} {b : ℚ}
    (h : lookupAL l k = some b) : (k, b) ∈ l := by
  induction l with
  | nil => simp [lookupAL] at h
  | cons hd tl ih =>
    obtain ⟨a, c⟩ := hd
    by_cases ha : a = k
    · subst ha
      simp only [lookupAL, eq_self_iff_true, if_true, Option.some.injEq] at h
      simp [h]
    · simp only [lookupAL, if_neg ha] at h
      exact List.mem_cons_of_mem _ (ih h)

theorem mem_lookup {l : List (Nat × ℚ)} {k : Nat} {b : ℚ}
    (hn : KeysNodup l) (h : (k, b) ∈ l) : lookupAL l k = some b := by
  induction l with
  | nil => simp at h
  | cons hd tl ih =>
    obtain ⟨a, c⟩ := hd
    rcases List.nodup_cons.mp hn with ⟨hna, hnd⟩
    rcases List.mem_cons.mp h with h' | h'
    · rcases Prod.mk.injEq _ _ _ _ ▸ h' with ⟨h1, h2⟩
      subst h1; subst h2
      simp [lookupAL]
    · by_cases ha : a = k
      · subst ha
        exact absurd (List.mem_map.mpr ⟨_, h', rfl⟩) hna
      · simp only [lookupAL, if_neg ha]
        exact ih hnd h'

/-! ### Sweep lemmas -/

theorem MIN_DELAY_pos : 0 < MIN_DELAY := by norm_num [MIN_DELAY]

theorem sleepOf_nonneg (e : Event) : 0 ≤ sleepOf e := by
  rcases e with ⟨now, kind⟩
  cases kind with
  | timeout => simp [sleepOf]
  | recv item =>
    cases item with
    | num d => by_cases hd : 0 ≤ d <;> simp [sleepOf, hd]
    | check v t => simp [sleepOf]
    | badTuple => simp [sleepOf]
    | str s => simp [sleepOf]
    | other r => simp [sleepOf]

theorem gapOf_nonneg (e : Event) : 0 ≤ gapOf e := by
  unfold gapOf
  rcases e with ⟨now, kind⟩
  cases kind with
  | timeout => exact le_of_lt MIN_DELAY_pos
  | recv item => simp

theorem sweepGo_cb_mem {now : ℚ} {v : Nat} {t : ℚ} :
    ∀ {snap : List (Nat × ℚ)} {st : DaemonState},
      Out.cb v t ∈ (sweepGo now snap st).2 → (v, t) ∈ snap := by
  intro snap
  induction snap with
  | nil => intro st h; simp [sweepGo] at h
  | cons hd tl ih =>
    intro st h
    obtain ⟨w, s⟩ := hd
    by_cases hdue : now > s + MIN_DELAY
    · simp only [sweepGo, if_pos hdue, List.mem_cons, Out.cb.injEq] at h
      rcases h with ⟨h1, h2⟩ | h
      · subst h1; subst h2; exact List.mem_cons_self _ _
      · exact List.mem_cons_of_mem _ (ih h)
    · simp only [sweepGo, if_neg hdue] at h
      exact List.mem_cons_of_mem _ (ih h)

theorem sweepGo_pending_mem {now : ℚ} {p : Nat × ℚ} :
    ∀ {snap : List (Nat × ℚ)} {st : DaemonState},
      p ∈ (sweepGo now snap st).1.pending → p ∈ st.pending := by
  intro snap
  induction snap with
  | nil => intro st h; simpa [sweepGo] using h
  | cons hd tl ih =>
    intro st h
    obtain ⟨w, s⟩ := hd
    by_cases hdue : now > s + MIN_DELAY
    · simp only [sweepGo, if_pos hdue] at h
      exact mem_eraseAL (ih h)
    · simp only [sweepGo, if_neg hdue] at h
      exact ih h

theorem sweepGo_fires {now : ℚ} {v : Nat} {t : ℚ} :
    ∀ {snap : List (Nat × ℚ)} (st : DaemonState),
      (v, t) ∈ snap → t + MIN_DELAY < now → Out.cb v t ∈ (sweepGo now snap st).2 := by
  intro snap
  induction snap with
  | nil => intro st h _; simp at h
  | cons hd tl ih =>
    intro st h hdue
    obtain ⟨w, s⟩ := hd
    rcases List.mem_cons.mp h with h' | h'
    · rcases Prod.mk.injEq _ _ _ _ ▸ h' with ⟨h1, h2⟩
      subst h1; subst h2
      simp [sweepGo, if_pos hdue]
    · by_cases hd2 : now > s + MIN_DELAY
      · simp only [sweepGo, if_pos hd2, List.mem_cons]
        right; exact ih _ h' hdue
      · simp only [sweepGo, if_neg hd2]
        exact ih _ h' hdue

theorem sweepGo_keysNodup {now : ℚ} :
    ∀ {snap : List (Nat × ℚ)} {st : DaemonState},
      KeysNodup st.pending → KeysNodup (sweepGo now snap st).1.pending := by
  intro snap
  induction snap with
  | nil => intro st h; simpa [sweepGo] using h
  | cons hd tl ih =>
    intro st h
    obtain ⟨w, s⟩ := hd
    by_cases hdue : now > s + MIN_DELAY
    · simp only [sweepGo, if_pos hdue]
      exact ih (keysNodup_eraseAL _ h)
    · simp only [sweepGo, if_neg hdue]
      exact ih h

/-! ### Step lemmas -/

theorem step_timeout (st : DaemonState) (T : ℚ) :
    step st ⟨T, EvKind.timeout⟩ = sweep T st := rfl

theorem step_check_discard {st : DaemonState} {v : Nat} {t r : ℚ} (a : ℚ)
    (hr : lookupAL st.last_runs v = some r) (hlt : t < r) :
    step st ⟨a, EvKind.recv (QItem.check v t)⟩ = (st, []) := by
  simp [step, stepBody, hr, hlt]

theorem step_check_accept {st : DaemonState} {v : Nat} {t : ℚ} (a : ℚ)
    (hr : ∀ r, lookupAL st.last_runs v = some r → ¬ t < r) :
    step st ⟨a, EvKind.recv (QItem.check v t)⟩ =
      ({ st with pending := insertAL st.pending v t }, []) := by
  cases h : lookupAL st.last_runs v with
  | none => simp [step, stepBody, h]
  | some r => simp [step, stepBody, h, hr r h]

theorem step_check_outs (st : DaemonState) (a : ℚ) (v : Nat) (t : ℚ) :
    (step st ⟨a, EvKind.recv (QItem.check v t)⟩).2 = [] := by
  by_cases hacc : ∀ r, lookupAL st.last_runs v = some r → ¬ t < r
  · rw [step_check_accept _ hacc]
  · push_neg at hacc
    obtain ⟨r, hr, hlt⟩ := hacc
    rw [step_check_discard _ hr hlt]

theorem step_check_last_runs (st : DaemonState) (a : ℚ) (v : Nat) (t : ℚ) :
    (step st ⟨a, EvKind.recv (QItem.check v t)⟩).1.last_runs = st.last_runs := by
  by_cases hacc : ∀ r, lookupAL st.last_runs v = some r → ¬ t < r
  · rw [step_check_accept _ hacc]
  · push_neg at hacc
    obtain ⟨r, hr, hlt⟩ := hacc
    rw [step_check_discard _ hr hlt]

theorem step_num_nonneg (st : DaemonState) (a : ℚ) {d : ℚ} (h : 0 ≤ d) :
    step st ⟨a, EvKind.recv (QItem.num d)⟩ = (st, []) := by
  simp [step, stepBody, not_lt.mpr h]

theorem step_num_neg (st : DaemonState) (a : ℚ) {d : ℚ} (h : d < 0) :
    step st ⟨a, EvKind.recv (QItem.num d)⟩ = (st, errorLog) := by
  simp [step, stepBody, h]

theorem step_badTuple (st : DaemonState) (a : ℚ) :
    step st ⟨a, EvKind.recv QItem.badTuple⟩ = (st, errorLog) := rfl

theorem step_str_reload (st : DaemonState) (a : ℚ) :
    step st ⟨a, EvKind.recv (QItem.str "reload")⟩ =
      (st, [printfLine ["daemon detected a reload"]]) := rfl

theorem step_str_other (st : DaemonState) (a : ℚ) {s : String} (h : s ≠ "reload") :
    step st ⟨a, EvKind.recv (QItem.str s)⟩ = (st, []) := by
  simp [step, stepBody, h]

theorem step_other (st : DaemonState) (a : ℚ) (r : String) :
    step st ⟨a, EvKind.recv (QItem.other r)⟩ =
      (st, [printfLine ["unknown message sent to daemon:", r]]) := rfl

theorem step_cb_timeout {st : DaemonState} {e : Event} {v : Nat} {t : ℚ}
    (h : Out.cb v t ∈ (step st e).2) :
    e.kind = EvKind.timeout ∧ (v, t) ∈ st.pending := by
  rcases e with ⟨now, kind⟩
  cases kind with
  | timeout =>
    exact ⟨rfl, sweepGo_cb_mem h⟩
  | recv item =>
    exfalso
    cases item with
    | check w s => rw [step_check_outs] at h; simp at h
    | badTuple => rw [step_badTuple] at h; simp [errorLog] at h
    | num d =>
      by_cases hd : d < 0
      · rw [step_num_neg _ _ hd] at h; simp [errorLog] at h
      · rw [step_num_nonneg _ _ (not_lt.mp hd)] at h; simp at h
    | str s =>
      by_cases hs : s = "reload"
      · subst hs; rw [step_str_reload] at h; simp [printfLine] at h
      · rw [step_str_other _ _ hs] at h; simp at h
    | other r => rw [step_other] at h; simp [printfLine] at h

theorem step_pending_mem {st : DaemonState} {e : Event} {v : Nat} {t : ℚ}
    (h : (v, t) ∈ (step st e).1.pending) :
    (v, t) ∈ st.pending ∨ e.kind = EvKind.recv (QItem.check v t) := by
  rcases e with ⟨now, kind⟩
  cases kind with
  | timeout => exact Or.inl (sweepGo_pending_mem h)
  | recv item =>
    cases item with
    | check w s =>
      by_cases hacc : ∀ r, lookupAL st.last_runs w = some r → ¬ s < r
      · rw [step_check_accept _ hacc] at h
        simp only at h
        rcases mem_insertAL h with h' | h'
        · exact Or.inl h'
        · rcases Prod.mk.injEq _ _ _ _ ▸ h' with ⟨h1, h2⟩
          subst h1; subst h2
          exact Or.inr rfl
      · push_neg at hacc
        obtain ⟨r, hr, hlt⟩ := hacc
        rw [step_check_discard _ hr hlt] at h
        exact Or.inl h
    | badTuple => rw [step_badTuple] at h; exact Or.inl h
    | num d =>
      by_cases hd : d < 0
      · rw [step_num_neg _ _ hd] at h; exact Or.inl h
      · rw [step_num_nonneg _ _ (not_lt.mp hd)] at h; exact Or.inl h
    | str s =>
      by_cases hs : s = "reload"
      · subst hs; rw [step_str_reload] at h; exact Or.inl h
      · rw [step_str_other _ _ hs] at h; exact Or.inl h
    | other r => rw [step_other] at h; exact Or.inl h

theorem step_keysNodup {st : DaemonState} {e : Event}
    (h : KeysNodup st.pending) : KeysNodup (step st e).1.pending := by
  rcases e with ⟨now, kind⟩
  cases kind with
  | timeout => exact sweepGo_keysNodup h
  | recv item =>
    cases item with
    | check w s =>
      by_cases hacc : ∀ r, lookupAL st.last_runs w = some r → ¬ s < r
      · rw [step_check_accept _ hacc]
        exact keysNodup_insertAL _ _ h
      · push_neg at hacc
        obtain ⟨r, hr, hlt⟩ := hacc
        rw [step_check_discard _ hr hlt]
        exact h
    | badTuple => rw [step_badTuple]; exact h
    | num d =>
      by_cases hd : d < 0
      · rw [step_num_neg _ _ hd]; exact h
      · rw [step_num_nonneg _ _ (not_lt.mp hd)]; exact h
    | str s =>
      by_cases hs : s = "reload"
      · subst hs; rw [step_str_reload]; exact h
      · rw [step_str_other _ _ hs]; exact h
    | other r => rw [step_other]; exact h

/-! ### Run-level lemmas -/

theorem run_cons (st : DaemonState) (e : Event) (rest : List Event) :
    run st (e :: rest) =
      ((run (step st e).1 rest).1,
       (step st e).2.map (fun o => (e.now, o)) ++ (run (step st e).1 rest).2) := rfl

/-- If a request pair is not pending and never re-enqueued, then it is
never dispatched and never becomes pending again. -/
theorem run_not_fired {v : Nat} {t : ℚ} :
    ∀ (evs : List Event) (st : DaemonState),
      (v, t) ∉ st.pending →
      (∀ e ∈ evs, e.kind ≠ EvKind.recv (QItem.check v t)) →
      (v, t) ∉ (run st evs).1.pending ∧ ∀ T, (T, Out.cb v t) ∉ (run st evs).2 := by
  intro evs
  induction evs with
  | nil => intro st h _; exact ⟨h, by simp [run]⟩
  | cons e rest ih =>
    intro st h hk
    have hke : e.kind ≠ EvKind.recv (QItem.check v t) := hk e (List.mem_cons_self _ _)
    have hkr : ∀ e' ∈ rest, e'.kind ≠ EvKind.recv (QItem.check v t) :=
      fun e' he' => hk e' (List.mem_cons_of_mem _ he')
    have h1 : (v, t) ∉ (step st e).1.pending := by
      intro hmem
      rcases step_pending_mem hmem with h' | h'
      · exact h h'
      · exact hke h'
    rcases ih (step st e).1 h1 hkr with ⟨hp, ho⟩
    refine ⟨by rw [run_cons]; exact hp, ?_⟩
    intro T hT
    rw [run_cons] at hT
    rcases List.mem_append.mp hT with hT | hT
    · rcases List.mem_map.mp hT with ⟨o, ho', he⟩
      have : o = Out.cb v t := (Prod.mk.injEq _ _ _ _ ▸ he).2
      subst this
      exact h (step_cb_timeout ho').2
    · exact ho T hT

/-- Every dispatch happens at least `MIN_DELAY` after the previous event
(and its sleep): a callback can fire only at a `timeout` event, which the
queue raises only after blocking for the full `MIN_DELAY`. -/
theorem cb_time_lb :
    ∀ (evs : List Event) (st : DaemonState) (t c : ℚ),
      0 ≤ c → wellTimedB t c evs = true →
      ∀ T v ts, (T, Out.cb v ts) ∈ (run st evs).2 → t + c + MIN_DELAY ≤ T := by
  intro evs
  induction evs with
  | nil => intro st t c _ _ T v ts h; simp [run] at h
  | cons e rest ih =>
    intro st t c hc hwt T v ts h
    simp only [wellTimedB, Bool.and_eq_true, decide_eq_true_eq] at hwt
    obtain ⟨⟨hmono, hgap⟩, hwt'⟩ := hwt
    rw [run_cons] at h
    rcases List.mem_append.mp h with h' | h'
    · rcases List.mem_map.mp h' with ⟨o, ho, he⟩
      rcases Prod.mk.injEq _ _ _ _ ▸ he with ⟨hT, hOut⟩
      subst hOut
      have hto := step_cb_timeout ho
      have : gapOf e = MIN_DELAY := by simp [gapOf, hto.1]
      rw [this] at hgap
      linarith [hT ▸ hgap]
    · have := ih (step st e).1 e.now (sleepOf e) (sleepOf_nonneg e) hwt' T v ts h'
      have hg : 0 ≤ gapOf e := gapOf_nonneg e
      have hs : 0 ≤ sleepOf e := sleepOf_nonneg e
      linarith

/-! ### Dispatch-effect lemmas (sweep postconditions) -/

theorem mem_unique_key {l : List (Nat × ℚ)} {k : Nat} {a b : ℚ}
    (hn : KeysNodup l) (h1 : (k, a) ∈ l) (h2 : (k, b) ∈ l) : a = b := by
  induction l with
  | nil => simp at h1
  | cons hd tl ih =>
    obtain ⟨w, s⟩ := hd
    rcases List.nodup_cons.mp hn with ⟨hna, hnd⟩
    rcases List.mem_cons.mp h1 with h1' | h1' <;>
      rcases List.mem_cons.mp h2 with h2' | h2'
    · rcases Prod.mk.injEq _ _ _ _ ▸ h1' with ⟨_, e1⟩
      rcases Prod.mk.injEq _ _ _ _ ▸ h2' with ⟨_, e2⟩
      rw [e1, e2]
    · rcases Prod.mk.injEq _ _ _ _ ▸ h1' with ⟨e1, _⟩
      subst e1
      exact absurd (List.mem_map.mpr ⟨_, h2', rfl⟩) hna
    · rcases Prod.mk.injEq _ _ _ _ ▸ h2' with ⟨e2, _⟩
      subst e2
      exact absurd (List.mem_map.mpr ⟨_, h1', rfl⟩) hna
    · exact ih hnd h1' h2'

/-- Entries whose key never occurs in the snapshot are untouched by the
sweep, in both tables. -/
theorem sweepGo_untouched {now : ℚ} {v : Nat} :
    ∀ {snap : List (Nat × ℚ)} (st : DaemonState),
      v ∉ snap.map Prod.fst →
      lookupAL (sweepGo now snap st).1.pending v = lookupAL st.pending v ∧
      lookupAL (sweepGo now snap st).1.last_runs v = lookupAL st.last_runs v := by
  intro snap
  induction snap with
  | nil => intro st _; simp [sweepGo]
  | cons hd tl ih =>
    intro st hv
    obtain ⟨w, s⟩ := hd
    simp only [List.map_cons, List.mem_cons, not_or] at hv
    have hwv : v ≠ w := hv.1
    by_cases hdue : now > s + MIN_DELAY
    · simp only [sweepGo, if_pos hdue]
      rcases ih ⟨eraseAL st.pending w, insertAL st.last_runs w now⟩ hv.2 with ⟨h1, h2⟩
      exact ⟨h1.trans (lookup_eraseAL_ne _ hwv),
             h2.trans (lookup_insertAL_ne _ _ hwv)⟩
    · simp only [sweepGo, if_neg hdue]
      exact ih st hv.2

/-- When the sweep dispatches an entry it deletes it from the pending
dict and records the current time in the persistent table. -/
theorem sweepGo_dispatch {now : ℚ} {v : Nat} {t : ℚ} :
    ∀ {snap : List (Nat × ℚ)} (st : DaemonState),
      KeysNodup snap → KeysNodup st.pending →
      (v, t) ∈ snap → t + MIN_DELAY < now →
      lookupAL (sweepGo now snap st).1.pending v = none ∧
      lookupAL (sweepGo now snap st).1.last_runs v = some now := by
  intro snap
  induction snap with
  | nil => intro st _ _ h _; simp at h
  | cons hd tl ih =>
    intro st hsn hpn hmem hdue
    obtain ⟨w, s⟩ := hd
    rcases List.nodup_cons.mp hsn with ⟨hna, hnd⟩
    rcases List.mem_cons.mp hmem with h' | h'
    · rcases Prod.mk.injEq _ _ _ _ ▸ h' with ⟨h1, h2⟩
      subst h1; subst h2
      simp only [sweepGo, if_pos hdue]
      rcases sweepGo_untouched ⟨eraseAL st.pending v, insertAL st.last_runs v now⟩ hna
        with ⟨hp, hl⟩
      exact ⟨hp.trans (lookup_eraseAL_self hpn),
             hl.trans (lookup_insertAL_self _ _ _)⟩
    · have hwv : w ≠ v := by
        intro he
        subst he
        exact hna (List.mem_map.mpr ⟨_, h', rfl⟩)
      by_cases hd2 : now > s + MIN_DELAY
      · simp only [sweepGo, if_pos hd2]
        exact ih ⟨eraseAL st.pending w, insertAL st.last_runs w now⟩ hnd
          (keysNodup_eraseAL _ hpn) h' hdue
      · simp only [sweepGo, if_neg hd2]
        exact ih st hnd hpn h' hdue

theorem run_append (l1 : List Event) :
    ∀ (st : DaemonState) (l2 : List Event),
      run st (l1 ++ l2) =
        ((run (run st l1).1 l2).1, (run st l1).2 ++ (run (run st l1).1 l2).2) := by
  induction l1 with
  | nil => intro st l2; simp [run]
  | cons e rest ih =>
    intro st l2
    rw [List.cons_append, run_cons, run_cons, ih]
    simp [run_cons, List.append_assoc]

theorem run_keysNodup : ∀ (evs : List Event) (st : DaemonState),
    KeysNodup st.pending → KeysNodup (run st evs).1.pending := by
  intro evs
  induction evs with
  | nil => intro st h; exact h
  | cons e rest ih =>
    intro st h
    rw [run_cons]
    exact ih _ (step_keysNodup h)

theorem run_no_cb_without_timeout :
    ∀ (evs : List Event) (st : DaemonState),
      (∀ e ∈ evs, e.kind ≠ EvKind.timeout) →
      ∀ T v t, (T, Out.cb v t) ∉ (run st evs).2 := by
  intro evs
  induction evs with
  | nil => intro st _ T v t h; simp [run] at h
  | cons e rest ih =>
    intro st hk T v t h
    rw [run_cons] at h
    rcases List.mem_append.mp h with h' | h'
    · rcases List.mem_map.mp h' with ⟨o, ho, he⟩
      have : o = Out.cb v t := (Prod.mk.injEq _ _ _ _ ▸ he).2
      subst this
      exact hk e (List.mem_cons_self _ _) (step_cb_timeout ho).1
    · exact ih _ (fun e' he' => hk e' (List.mem_cons_of_mem _ he')) T v t h'

theorem step_recv_last_runs (st : DaemonState) (a : ℚ) (item : QItem) :
    (step st ⟨a, EvKind.recv item⟩).1.last_runs = st.last_runs := by
  cases item with
  | check v t => exact step_check_last_runs st a v t
  | badTuple => rw [step_badTuple]
  | num d =>
    by_cases hd : d < 0
    · rw [step_num_neg _ _ hd]
    · rw [step_num_nonneg _ _ (not_lt.mp hd)]
  | str s =>
    by_cases hs : s = "reload"
    · subst hs; rw [step_str_reload]
    · rw [step_str_other _ _ hs]
  | other r => rw [step_other]

theorem run_no_timeout_last_runs :
    ∀ (evs : List Event) (st : DaemonState),
      (∀ e ∈ evs, e.kind ≠ EvKind.timeout) →
      (run st evs).1.last_runs = st.last_runs := by
  intro evs
  induction evs with
  | nil => intro st _; rfl
  | cons e rest ih =>
    intro st hk
    rw [run_cons]
    rcases e with ⟨a, kind⟩
    cases kind with
    | timeout => exact absurd rfl (hk _ (List.mem_cons_self _ _))
    | recv item =>
      rw [ih _ (fun e' he' => hk e' (List.mem_cons_of_mem _ he')),
        step_recv_last_runs]

/-! ### Class attributes, instances, and `start` / `hit` / `delay`

The `Daemon` class body defines `MIN_DELAY`, `running`, `callback`, `q`
and `last_runs` at class level; `__init__` assigns only `self.settings`
and `self.sub_settings`.  `start` assigns `self.callback` and (on the
first call) `self.running`, which in Python are instance-level writes
that shadow the class attribute for that one instance; `q` and
`last_runs` are never assigned through `self` (only mutated), so those
names always resolve to the single class-level objects. -/

/-- Process-wide state: the class attributes of `Daemon` (`running`,
`callback`, the queue object and the `last_runs` dict) plus the number
of consumer threads spawned with `threading.Thread(target=self.loop)`. -/
structure ProcState where
  classRunning : Bool
  classCallback : Option Nat
  q : List QItem
  class_last_runs : List (Nat × ℚ)
  threads : Nat
  deriving DecidableEq

/-- The instance dict of one `Daemon` object, restricted to the names
the source ever assigns through `self` that shadow class attributes:
`running` and `callback` (`none` = not present in the instance dict).
Callbacks are identified by an opaque numeric id. -/
structure Inst where
  running_i : Option Bool
  callback_i : Option (Option Nat)
  deriving DecidableEq

/-- A freshly constructed `Daemon()`: `__init__` puts neither `running`
nor `callback` into the instance dict. -/
def Daemon_new : Inst := ⟨none, none⟩

/-- Process state at module load: class attributes as written in the
class body, no consumer thread yet. -/
def initProc : ProcState := ⟨false, none, [], [], 0⟩

/-- Attribute resolution for `self.running`: instance dict first, then
the class attribute. -/
def readRunning (p : ProcState) (i : Inst) : Bool :=
  i.running_i.getD p.classRunning

/-- Attribute resolution for `self.callback`. -/
def readCallback (p : ProcState) (i : Inst) : Option Nat :=
  i.callback_i.getD p.classCallback

/-- `start(callback)`: assign `self.callback` (instance-level), then if
`self.running` enqueue the string `reload`, else set `self.running`
(instance-level) and spawn the consumer thread. -/
def start (p : ProcState) (i : Inst) (cb : Nat) : ProcState × Inst :=
  let i' : Inst := { i with callback_i := some (some cb) }
  if readRunning p i' then
    ({ p with q := p.q ++ [QItem.str "reload"] }, i')
  else
    ({ p with threads := p.threads + 1 }, { i' with running_i := some true })

/-- `hit(view)` through any instance: `self.q` resolves to the class
attribute, so the put lands on the one shared queue; the captured
timestamp is returned. -/
def hitVia (p : ProcState) (_i : Inst) (view_id : Nat) (now : ℚ) : ProcState × ℚ :=
  ({ p with q := p.q ++ [QItem.check view_id now] }, now)

/-- `delay(milliseconds)` through any instance: enqueues the converted
duration on the shared queue. -/
def delayVia (p : ProcState) (_i : Inst) (milliseconds : ℚ := 100) : ProcState :=
  { p with q := p.q ++ [delayMsg milliseconds] }

/-- Repeated `start` calls through one and the same instance. -/
def startMany : ProcState → Inst → List Nat → ProcState × Inst
  | p, i, [] => (p, i)
  | p, i, cb :: rest => startMany (start p i cb).1 (start p i cb).2 rest

theorem startMany_inv :
    ∀ (cbs : List Nat) (p : ProcState) (i : Inst),
      (p.threads = 0 ∧ readRunning p i = false) ∨
      (p.threads = 1 ∧ readRunning p i = true) →
      (startMany p i cbs).1.threads ≤ 1 := by
  intro cbs
  induction cbs with
  | nil =>
    intro p i h
    rcases h with ⟨h1, _⟩ | ⟨h1, _⟩ <;> simp [startMany, h1]
  | cons cb rest ih =>
    intro p i h
    rcases h with ⟨h1, h2⟩ | ⟨h1, h2⟩
    · rw [startMany]
      apply ih
      right
      have h2' : i.running_i.getD p.classRunning = false := h2
      constructor
      · simp [start, readRunning, h2', h1]
      · simp [start, readRunning, h2']
    · rw [startMany]
      apply ih
      right
      have h2' : i.running_i.getD p.classRunning = true := h2
      constructor
      · simp [start, readRunning, h2', h1]
      · simp [start, readRunning, h2']

/-! ### Claim theorems -/

/-- C2: a request accepted into the pending set when the loop processes
its arrival at time `Ta` is never dispatched before `MIN_DELAY` has
elapsed since `Ta` — callbacks fire only at queue-timeout sweeps, and
after the arrival event the next sweep is at least `MIN_DELAY` later
(`wellTimedB Ta 0 post` is exactly the timing constraint on the events
that follow the arrival); and if no newer request for the id has
replaced the entry, so that `(v, t)` is still pending when a sweep runs
at a time `T` past its window (`t + MIN_DELAY < T`, and the first such
sweep qualifies), that sweep dispatches it. -/
theorem no_dispatch_before_min_delay
    (st : DaemonState) (v : Nat) (t Ta : ℚ) (post : List Event)
    (hwt : wellTimedB Ta 0 post = true) :
    (∀ T w ts,
        (T, Out.cb w ts) ∈ (run (step st ⟨Ta, EvKind.recv (QItem.check v t)⟩).1 post).2 →
        Ta + MIN_DELAY ≤ T) ∧
    (∀ (st' : DaemonState) (T : ℚ), (v, t) ∈ st'.pending → t + MIN_DELAY < T →
        Out.cb v t ∈ (step st' ⟨T, EvKind.timeout⟩).2) := by
  constructor
  · intro T w ts h
    have := cb_time_lb post _ Ta 0 le_rfl hwt T w ts h
    linarith
  · intro st' T hmem hdue
    rw [step_timeout]
    exact sweepGo_fires st' hmem hdue

theorem no_dispatch_before_min_delay_witness :
    ((0:ℚ) + MIN_DELAY ≤ 1/5) ∧
    Out.cb 1 0 ∈ (step ⟨[(1, 0)], []⟩ ⟨(1:ℚ)/5, EvKind.timeout⟩).2 := by
  have h := no_dispatch_before_min_delay initState 1 0 0 [⟨1/5, EvKind.timeout⟩]
    (by with_unfolding_all decide)
  refine ⟨?_, h.2 ⟨[(1, 0)], []⟩ (1/5) (by with_unfolding_all decide)
    (by with_unfolding_all decide)⟩
  exact h.1 (1/5) 1 0 (by with_unfolding_all decide)

/-- C3 counterexample: the staleness test is strict (`timestamp <
self.last_runs[view_id]`), so a request whose timestamp EQUALS the
stored last-run time is accepted and later dispatched, contradicting the
claim that no callback fires when `LastRunTable[id] ≥ t`.  In this
well-timed trace, after the first dispatch `last_runs[1] = 1/5`; the
request `(1, 1/5)` then arrives with `last_runs[1] ≥ 1/5`, yet its
callback fires at time `1/2`. -/
theorem equal_timestamp_dispatches :
    wellTimedB 0 0 [⟨0, EvKind.recv (QItem.check 1 0)⟩, ⟨1/5, EvKind.timeout⟩,
        ⟨3/10, EvKind.recv (QItem.check 1 (1/5))⟩, ⟨1/2, EvKind.timeout⟩] = true ∧
    lookupAL (run initState [⟨0, EvKind.recv (QItem.check 1 0)⟩,
        ⟨1/5, EvKind.timeout⟩]).1.last_runs 1 = some (1/5) ∧
    (run initState [⟨0, EvKind.recv (QItem.check 1 0)⟩, ⟨1/5, EvKind.timeout⟩,
        ⟨3/10, EvKind.recv (QItem.check 1 (1/5))⟩, ⟨1/2, EvKind.timeout⟩]).2 =
      [(1/5, Out.cb 1 0), (1/2, Out.cb 1 (1/5))] := by
  with_unfolding_all decide

/-- C3 (amended): a check request arriving when the persistent table has
an entry for its id is discarded exactly when its timestamp is STRICTLY
below the stored value (state unchanged, no output); when `t` is greater
than or equal to the stored value the request is accepted into the
pending set. -/
theorem stale_strict_discard (st : DaemonState) (a : ℚ) (v : Nat) (t r : ℚ)
    (hr : lookupAL st.last_runs v = some r) :
    (t < r → step st ⟨a, EvKind.recv (QItem.check v t)⟩ = (st, [])) ∧
    (r ≤ t → step st ⟨a, EvKind.recv (QItem.check v t)⟩ =
        ({ st with pending := insertAL st.pending v t }, [])) := by
  constructor
  · exact fun hlt => step_check_discard a hr hlt
  · intro hle
    apply step_check_accept
    intro r' hr'
    rw [hr] at hr'
    have hrr : r' = r := (Option.some.injEq _ _ ▸ hr').symm
    rw [hrr]
    exact not_lt.mpr hle

theorem stale_strict_discard_witness :
    step ⟨[], [(1, 5)]⟩ ⟨6, EvKind.recv (QItem.check 1 3)⟩ = (⟨[], [(1, 5)]⟩, []) ∧
    step ⟨[], [(1, 5)]⟩ ⟨6, EvKind.recv (QItem.check 1 5)⟩ = (⟨[(1, 5)], [(1, 5)]⟩, []) := by
  have h1 := stale_strict_discard ⟨[], [(1, 5)]⟩ 6 1 3 5 (by with_unfolding_all decide)
  have h2 := stale_strict_discard ⟨[], [(1, 5)]⟩ 6 1 5 5 (by with_unfolding_all decide)
  exact ⟨h1.1 (by norm_num), h2.2 le_rfl⟩

/-- C4: when a sweep at time `T` dispatches the pending entry `(v, t)`
(it is pending and past its window), the resulting state has
`last_runs[v]` set to the sweep's current monotonic time `T`, the entry
removed from the pending set, and the callback invoked with the original
request timestamp `t` — not with `T` (no callback carrying `T` is
emitted when `t ≠ T`). -/
theorem sweep_dispatch_effects (st : DaemonState) (v : Nat) (t T : ℚ)
    (hn : KeysNodup st.pending) (hmem : (v, t) ∈ st.pending)
    (hdue : t + MIN_DELAY < T) :
    Out.cb v t ∈ (step st ⟨T, EvKind.timeout⟩).2 ∧
    lookupAL (step st ⟨T, EvKind.timeout⟩).1.pending v = none ∧
    lookupAL (step st ⟨T, EvKind.timeout⟩).1.last_runs v = some T ∧
    (t ≠ T → Out.cb v T ∉ (step st ⟨T, EvKind.timeout⟩).2) := by
  rw [step_timeout]
  unfold sweep
  refine ⟨sweepGo_fires st hmem hdue, (sweepGo_dispatch st hn hn hmem hdue).1,
    (sweepGo_dispatch st hn hn hmem hdue).2, ?_⟩
  intro hne hcb
  exact hne (mem_unique_key hn hmem (sweepGo_cb_mem hcb))

theorem sweep_dispatch_effects_witness :
    Out.cb 1 0 ∈ (step ⟨[(1, 0)], []⟩ ⟨1, EvKind.timeout⟩).2 ∧
    lookupAL (step ⟨[(1, 0)], []⟩ ⟨1, EvKind.timeout⟩).1.pending 1 = none ∧
    lookupAL (step ⟨[(1, 0)], []⟩ ⟨1, EvKind.timeout⟩).1.last_runs 1 = some 1 := by
  have h := sweep_dispatch_effects ⟨[(1, 0)], []⟩ 1 0 1
    (by simp [KeysNodup]) (by with_unfolding_all decide)
    (by with_unfolding_all decide)
  exact ⟨h.1, h.2.1, h.2.2.1⟩

/-- C5 counterexample: a check request arriving when NO other request is
pending (the state is the initial one) is not run immediately — the
iteration that receives it produces no callback, only inserting the
entry into the pending set; in this well-timed trace the callback fires
only at the later sweep at time `1/5`, not at receipt time `0`. -/
theorem no_immediate_dispatch :
    step initState ⟨0, EvKind.recv (QItem.check 1 0)⟩ = (⟨[(1, 0)], []⟩, []) ∧
    wellTimedB 0 0 [⟨0, EvKind.recv (QItem.check 1 0)⟩, ⟨1/5, EvKind.timeout⟩] = true ∧
    (run initState [⟨0, EvKind.recv (QItem.check 1 0)⟩, ⟨1/5, EvKind.timeout⟩]).2 =
      [(1/5, Out.cb 1 0)] := by
  with_unfolding_all decide

/-- C5 (amended): there is no immediate-dispatch path.  Processing the
arrival of ANY check request — whether or not anything else is pending —
produces no callback; and in any well-timed trace every callback fires
at least `MIN_DELAY` after the previous event, so every request waits
for a sweep. -/
theorem always_deferred :
    (∀ (st : DaemonState) (a : ℚ) (v : Nat) (t : ℚ),
        (step st ⟨a, EvKind.recv (QItem.check v t)⟩).2 = []) ∧
    (∀ (evs : List Event) (st : DaemonState) (t c : ℚ), 0 ≤ c →
        wellTimedB t c evs = true →
        ∀ T v ts, (T, Out.cb v ts) ∈ (run st evs).2 → t + c + MIN_DELAY ≤ T) := by
  exact ⟨fun st a v t => step_check_outs st a v t, cb_time_lb⟩

theorem always_deferred_witness :
    (step initState ⟨0, EvKind.recv (QItem.check 1 0)⟩).2 = [] ∧
    ((0:ℚ) + 0 + MIN_DELAY ≤ 1/5) := by
  refine ⟨always_deferred.1 initState 0 1 0, ?_⟩
  exact always_deferred.2 [⟨1/5, EvKind.timeout⟩] ⟨[(1, 0)], []⟩ 0 0 le_rfl
    (by with_unfolding_all decide) (1/5) 1 0 (by with_unfolding_all decide)

/-- C6: a delay instruction of (nonnegative) duration `D` processed at
time `s` sweeps nothing and fires nothing itself, and since the consumer
then sleeps `D` before the next dequeue (`wellTimedB s D post` is
exactly the timing constraint on the following events), every callback
dispatched afterwards fires at a time at least `s + D` — indeed at least
`s + D + MIN_DELAY` — so every pending dispatch is delayed by at least
`D`; and the `delay(milliseconds)` entry point enqueues the duration
converted from milliseconds to seconds (default argument 100 giving
0.1). -/
theorem delay_postpones_dispatch
    (st : DaemonState) (post : List Event) (s D ms : ℚ)
    (hD : 0 ≤ D) (hwt : wellTimedB s D post = true) :
    step st ⟨s, EvKind.recv (QItem.num D)⟩ = (st, []) ∧
    (∀ T v ts,
        (T, Out.cb v ts) ∈ (run st (⟨s, EvKind.recv (QItem.num D)⟩ :: post)).2 →
        s + D ≤ T ∧ s + D + MIN_DELAY ≤ T) ∧
    delayMsg ms = QItem.num (ms / 1000) ∧
    delayMsg 100 = QItem.num (1 / 10) := by
  refine ⟨step_num_nonneg st s hD, ?_, rfl, by norm_num [delayMsg]⟩
  intro T v ts h
  rw [run_cons, step_num_nonneg st s hD] at h
  simp only [List.map_nil, List.nil_append] at h
  have := cb_time_lb post st s D hD hwt T v ts h
  constructor <;> linarith [MIN_DELAY_pos]

theorem delay_postpones_dispatch_witness :
    step (⟨[(1, 0)], []⟩ : DaemonState) ⟨0, EvKind.recv (QItem.num 2)⟩ =
      (⟨[(1, 0)], []⟩, []) ∧
    ((0:ℚ) + 2 ≤ 21/10) ∧
    delayMsg 100 = QItem.num (1 / 10) := by
  have h := delay_postpones_dispatch ⟨[(1, 0)], []⟩ [⟨21/10, EvKind.timeout⟩] 0 2 100
    (by norm_num) (by with_unfolding_all decide)
  exact ⟨h.1, (h.2.1 (21/10) 1 0 (by with_unfolding_all decide)).1, h.2.2.2⟩

/-- C7: `start(callback)` always registers the callback (the started
object reads it back); when the daemon is not running it increments the
thread count by exactly one, marks it running and enqueues nothing; when
it is already running it spawns no thread and enqueues the `reload`
control string instead; and any sequence of `start` calls through the
one module-level instance spawns at most one consumer thread. -/
theorem start_idempotent_single_thread :
    (∀ (p : ProcState) (i : Inst) (cb : Nat),
        readCallback (start p i cb).1 (start p i cb).2 = some cb) ∧
    (∀ (p : ProcState) (i : Inst) (cb : Nat), readRunning p i = false →
        (start p i cb).1.threads = p.threads + 1 ∧
        readRunning (start p i cb).1 (start p i cb).2 = true ∧
        (start p i cb).1.q = p.q) ∧
    (∀ (p : ProcState) (i : Inst) (cb : Nat), readRunning p i = true →
        (start p i cb).1.threads = p.threads ∧
        (start p i cb).1.q = p.q ++ [QItem.str "reload"]) ∧
    (∀ cbs : List Nat, (startMany initProc Daemon_new cbs).1.threads ≤ 1) := by
  refine ⟨?_, ?_, ?_, ?_⟩
  · intro p i cb
    cases hb : i.running_i.getD p.classRunning with
    | false => simp [start, readRunning, readCallback, hb]
    | true => simp [start, readRunning, readCallback, hb]
  · intro p i cb h
    have hb : i.running_i.getD p.classRunning = false := h
    refine ⟨?_, ?_, ?_⟩ <;> simp [start, readRunning, hb]
  · intro p i cb h
    have hb : i.running_i.getD p.classRunning = true := h
    refine ⟨?_, ?_⟩ <;> simp [start, readRunning, hb]
  · intro cbs
    exact startMany_inv cbs initProc Daemon_new (Or.inl ⟨rfl, rfl⟩)

theorem start_idempotent_single_thread_witness :
    readCallback (start initProc Daemon_new 7).1 (start initProc Daemon_new 7).2 = some 7 ∧
    (start initProc Daemon_new 7).1.threads = initProc.threads + 1 ∧
    (startMany initProc Daemon_new [7, 8, 9]).1.threads ≤ 1 := by
  refine ⟨start_idempotent_single_thread.1 initProc Daemon_new 7, ?_,
    start_idempotent_single_thread.2.2.2 [7, 8, 9]⟩
  exact (start_idempotent_single_thread.2.1 initProc Daemon_new 7 rfl).1

/-- C8: the loop body signals an exception for a message it cannot
unpack (a tuple that is not a pair); the boundary handler turns every
body exception into the four-line diagnostic block — header, 20-dash
delimiter, traceback, delimiter — with the state unchanged, and the run
simply continues with the remaining events: no message terminates the
loop. -/
theorem loop_survives_exception (st : DaemonState) (now : ℚ) (rest : List Event) :
    stepBody st ⟨now, EvKind.recv QItem.badTuple⟩ = Except.error () ∧
    (∀ e, stepBody st e = Except.error () → step st e = (st, errorLog)) ∧
    errorLog = [printfLine ["error in SublimeLinter daemon:"],
      printfLine ["--------------------"], printfLine ["<traceback>"],
      printfLine ["--------------------"]] ∧
    run st (⟨now, EvKind.recv QItem.badTuple⟩ :: rest) =
      ((run st rest).1, errorLog.map (fun o => (now, o)) ++ (run st rest).2) := by
  refine ⟨rfl, ?_, rfl, ?_⟩
  · intro e he
    unfold step
    rw [he]
  · rw [run_cons, step_badTuple]

theorem loop_survives_exception_witness :
    stepBody initState ⟨0, EvKind.recv QItem.badTuple⟩ = Except.error () ∧
    step initState ⟨0, EvKind.recv QItem.badTuple⟩ = (initState, errorLog) := by
  refine ⟨(loop_survives_exception initState 0 []).1, ?_⟩
  exact (loop_survives_exception initState 0 []).2.1 ⟨0, EvKind.recv QItem.badTuple⟩
    (loop_survives_exception initState 0 []).1

/-- C9 counterexample: a string message that is not a recognized control
signal falls into the string branch of the loop and is silently ignored
— no `printf` of an unknown message, no state change — contradicting the
claim that every unrecognized message is logged as unknown. -/
theorem unknown_string_not_logged :
    step initState ⟨5, EvKind.recv (QItem.str "shutdown")⟩ = (initState, []) :=
  step_str_other initState 5 (by decide)

/-- C9 (amended): only messages that are not a tuple, not a number and
not a string reach the fallback branch and are logged via `printf` as
unknown, with no state change; an unrecognized STRING is silently
ignored (no log, no state change); in both cases the loop continues with
the remaining events. -/
theorem unknown_message_logging (st : DaemonState) (a : ℚ) (r s : String)
    (hs : s ≠ "reload") (rest : List Event) :
    step st ⟨a, EvKind.recv (QItem.other r)⟩ =
      (st, [printfLine ["unknown message sent to daemon:", r]]) ∧
    step st ⟨a, EvKind.recv (QItem.str s)⟩ = (st, []) ∧
    run st (⟨a, EvKind.recv (QItem.other r)⟩ :: rest) =
      ((run st rest).1,
       (a, printfLine ["unknown message sent to daemon:", r]) :: (run st rest).2) := by
  refine ⟨step_other st a r, step_str_other st a hs, ?_⟩
  rw [run_cons, step_other]
  rfl

theorem unknown_message_logging_witness :
    step initState ⟨0, EvKind.recv (QItem.other "[1, 2]")⟩ =
      (initState, [printfLine ["unknown message sent to daemon:", "[1, 2]"]]) ∧
    step initState ⟨0, EvKind.recv (QItem.str "stop")⟩ = (initState, []) := by
  have h := unknown_message_logging initState 0 "[1, 2]" "stop" (by decide) []
  exact ⟨h.1, h.2.1⟩

/-- C10 counterexample: `start` writes `self.running` and
`self.callback` at INSTANCE level, so after the module singleton has
started the daemon (one thread), calling `start` through a second,
freshly constructed `Daemon()` still reads the untouched class-level
`running = False` and spawns a second consumer thread — it does not feed
the one shared loop. -/
theorem second_instance_start_spawns_thread :
    (start (start initProc Daemon_new 7).1 Daemon_new 8).1.threads = 2 ∧
    (start (start initProc Daemon_new 7).1 Daemon_new 8).1.classRunning = false := by
  decide

/-- C10 (amended): the queue, `last_runs`, `MIN_DELAY`, `running` and
`callback` are class-level attributes, and `q`/`last_runs` are never
shadowed, so a freshly constructed second instance shares them with the
singleton: `hit` and `delay` through any instance enqueue on the one
shared queue (the result does not depend on the instance), and `hit`
returns the captured timestamp.  `start`, however, performs
instance-level writes: it never changes the class-level `running`,
`callback` or `last_runs`, so starting through a second instance does
not signal the existing loop. -/
theorem class_level_sharing (p : ProcState) (i j : Inst) (v cb : Nat) (ts ms : ℚ) :
    hitVia p i v ts = hitVia p j v ts ∧
    (hitVia p i v ts).1.q = p.q ++ [QItem.check v ts] ∧
    (hitVia p i v ts).2 = ts ∧
    delayVia p i ms = delayVia p j ms ∧
    (delayVia p i ms).q = p.q ++ [delayMsg ms] ∧
    (start p i cb).1.classRunning = p.classRunning ∧
    (start p i cb).1.classCallback = p.classCallback ∧
    (start p i cb).1.class_last_runs = p.class_last_runs := by
  refine ⟨rfl, rfl, rfl, rfl, rfl, ?_, ?_, ?_⟩ <;>
  · by_cases hb : i.running_i.getD p.classRunning = true <;>
      simp [start, readRunning, hb]

/-- C1 counterexample: dispatch is NOT by greatest timestamp under
arbitrary arrival order.  Two requests for view 1 are pending before the
first sweep, with timestamps 5 and 3, arriving in that order (a producer
that read the clock earlier can enqueue later, so this interleaving is
well-timed: each arrival time is at or after its timestamp).  The later
arrival overwrites the pending entry, so the sweep fires the callback
for timestamp 3 — the SMALLER one — and the callback for the greatest
pending timestamp 5 never fires. -/
theorem greatest_timestamp_not_dispatched :
    wellTimedB 0 0 [⟨5, EvKind.recv (QItem.check 1 5)⟩, ⟨5, EvKind.recv (QItem.check 1 3)⟩,
        ⟨26/5, EvKind.timeout⟩] = true ∧
    (run initState [⟨5, EvKind.recv (QItem.check 1 5)⟩, ⟨5, EvKind.recv (QItem.check 1 3)⟩,
        ⟨26/5, EvKind.timeout⟩]).2 = [(26/5, Out.cb 1 3)] := by
  with_unfolding_all decide

/-- C1 (amended): supersession is by arrival order — the pending entry
for an id is the most recently dequeued request for it.  When the
arrivals are in timestamp order (`(v, t1)` then `(v, t2)` with
`t1 < t2`, no sweep between them, starting from the initial state), the
second arrival overwrites the entry (or `t1` was already discarded), so
the callback for `t1` never fires anywhere in the trace, provided
`(v, t1)` is never enqueued again; and a superseded request produces no
output at all — it is never reported as an error. -/
theorem last_arrival_supersedes
    (v : Nat) (t1 t2 a1 a2 : ℚ) (pre mid post : List Event)
    (h12 : t1 < t2)
    (hpre : ∀ e ∈ pre, e.kind ≠ EvKind.recv (QItem.check v t1))
    (hmid : ∀ e ∈ mid, e.kind ≠ EvKind.recv (QItem.check v t1) ∧ e.kind ≠ EvKind.timeout)
    (hpost : ∀ e ∈ post, e.kind ≠ EvKind.recv (QItem.check v t1)) :
    (∀ (st : DaemonState) (a : ℚ),
        (step st ⟨a, EvKind.recv (QItem.check v t1)⟩).2 = []) ∧
    ∀ T, (T, Out.cb v t1) ∉
      (run initState (pre ++ ⟨a1, EvKind.recv (QItem.check v t1)⟩ :: (mid ++
        ⟨a2, EvKind.recv (QItem.check v t2)⟩ :: post))).2 := by
  refine ⟨fun st a => step_check_outs st a v t1, ?_⟩
  intro T hTmem
  rw [run_append pre, run_cons, run_append mid, run_cons, step_check_outs,
    step_check_outs] at hTmem
  simp only [List.map_nil, List.nil_append, List.mem_append] at hTmem
  have hpre' : (v, t1) ∉ (initState : DaemonState).pending := by simp [initState]
  obtain ⟨hA1, hA2⟩ := run_not_fired pre initState hpre' hpre
  have hnA : KeysNodup (run initState pre).1.pending :=
    run_keysNodup pre initState (by simp [initState, KeysNodup])
  have hnB : KeysNodup (step (run initState pre).1
      ⟨a1, EvKind.recv (QItem.check v t1)⟩).1.pending := step_keysNodup hnA
  have hnC : KeysNodup (run (step (run initState pre).1
      ⟨a1, EvKind.recv (QItem.check v t1)⟩).1 mid).1.pending :=
    run_keysNodup mid _ hnB
  have hlrB : (step (run initState pre).1
      ⟨a1, EvKind.recv (QItem.check v t1)⟩).1.last_runs =
      (run initState pre).1.last_runs := step_check_last_runs _ a1 v t1
  have hlrC : (run (step (run initState pre).1
      ⟨a1, EvKind.recv (QItem.check v t1)⟩).1 mid).1.last_runs =
      (step (run initState pre).1 ⟨a1, EvKind.recv (QItem.check v t1)⟩).1.last_runs :=
    run_no_timeout_last_runs mid _ (fun e he => (hmid e he).2)
  have hD1 : (v, t1) ∉ (step (run (step (run initState pre).1
      ⟨a1, EvKind.recv (QItem.check v t1)⟩).1 mid).1
      ⟨a2, EvKind.recv (QItem.check v t2)⟩).1.pending := by
    by_cases hacc : ∀ r, lookupAL (run (step (run initState pre).1
        ⟨a1, EvKind.recv (QItem.check v t1)⟩).1 mid).1.last_runs v = some r → ¬ t2 < r
    · have hst := step_check_accept a2 hacc
      intro hmem
      rw [hst] at hmem
      exact absurd (mem_insertAL_same_key hnC hmem) (ne_of_lt h12)
    · push_neg at hacc
      obtain ⟨r, hrl, hlt2⟩ := hacc
      have hnotC : (v, t1) ∉ (run (step (run initState pre).1
          ⟨a1, EvKind.recv (QItem.check v t1)⟩).1 mid).1.pending := by
        intro hmemC
        have hmemB : (v, t1) ∈ (step (run initState pre).1
            ⟨a1, EvKind.recv (QItem.check v t1)⟩).1.pending := by
          by_contra hnB'
          exact (run_not_fired mid _ hnB' (fun e he => (hmid e he).1)).1 hmemC
        have hrlA : lookupAL (run initState pre).1.last_runs v = some r := by
          rw [← hlrB, ← hlrC]; exact hrl
        by_cases ht1 : t1 < r
        · have hstep := step_check_discard a1 hrlA ht1
          rw [hstep] at hmemB
          exact hA1 hmemB
        · exact ht1 (lt_trans h12 hlt2)
      have hst := step_check_discard a2 hrl hlt2
      rw [hst]
      exact hnotC
  obtain ⟨_, hD2⟩ := run_not_fired post _ hD1 hpost
  have hMid : ∀ T', (T', Out.cb v t1) ∉ (run (step (run initState pre).1
      ⟨a1, EvKind.recv (QItem.check v t1)⟩).1 mid).2 :=
    fun T' => run_no_cb_without_timeout mid _ (fun e he => (hmid e he).2) T' v t1
  rcases hTmem with h | h | h
  · exact hA2 T h
  · exact hMid T h
  · exact hD2 T h

theorem last_arrival_supersedes_witness :
    (step initState ⟨0, EvKind.recv (QItem.check 1 0)⟩).2 = [] ∧
    ((2 : ℚ), Out.cb 1 0) ∉
      (run initState ([] ++ ⟨0, EvKind.recv (QItem.check 1 0)⟩ :: ([] ++
        ⟨1, EvKind.recv (QItem.check 1 1)⟩ :: [⟨2, EvKind.timeout⟩]))).2 := by
  have h := last_arrival_supersedes 1 0 1 0 1 [] [] [⟨2, EvKind.timeout⟩]
    (by norm_num) (by intro e he; simp at he) (by intro e he; simp at he)
    (by intro e he; simp at he; subst he; decide)
  exact ⟨h.1 initState 0, h.2 2⟩
